import Mathlib

/-!
Shallow embedding of `parse_calendar.py` (DGA-Research/calenderParser).

Modelling conventions:
* Python strings are modelled as `List Char`; the helpers below mirror the
  Python string primitives (`.upper()`, `.strip()`, `in`, `.startswith`,
  `.split`, `re` patterns) on the ASCII fragment the program works with.
* PDF coordinates (`x0`) are modelled as integers; the program only compares
  them against integer thresholds and takes minima/differences.
* Regular expressions from the source are compiled by hand into decidable
  matchers; each matcher states the pattern it implements in its doc comment
  and follows Python's leftmost/greedy backtracking semantics.
* Fallible code (a `ValueError` from `strptime`, the possible `IndexError` in
  `clean_meeting_place`) is modelled with `Option`.
-/

namespace CalParse

/-- Characters of a Lean string literal; used to transcribe the Python string
constants. -/
def str (s : String) : List Char := s.data

/-- The apostrophe character (written numerically so the file stays plain). -/
def apos : Char := Char.ofNat 39

/-- A Segment: the atomic unit of classification, a piece of a line's text. -/
abbrev Seg := List Char

/-- Python `str.upper()` on the ASCII fragment: uppercase every character. -/
def up (l : List Char) : List Char := l.map Char.toUpper

/-- Drop characters satisfying `p` from both ends (Python `str.strip(chars)`). -/
def stripChars (p : Char → Bool) (l : List Char) : List Char :=
  ((l.dropWhile p).reverse.dropWhile p).reverse

/-- Python `str.strip()`: whitespace removed from both ends. -/
def strip (l : List Char) : List Char := stripChars Char.isWhitespace l

/-- Python `str.strip(' ;')`. -/
def stripSpSemi (l : List Char) : List Char :=
  stripChars (fun c => c == ' ' || c == ';') l

/-- Python `str.startswith`: does `pat` begin `l`? -/
def startsWithL : List Char → List Char → Bool
  | [], _ => true
  | _ :: _, [] => false
  | a :: as, b :: bs => a == b && startsWithL as bs

/-- Python `str.endswith`: does `pat` end `l`? -/
def endsWithL (pat l : List Char) : Bool := startsWithL pat.reverse l.reverse

/-- Python `pat in hay` for strings: substring occurrence. -/
def containsSub (hay pat : List Char) : Bool :=
  startsWithL pat hay ||
    match hay with
    | [] => false
    | _ :: t => containsSub t pat

/-- Python `str.split(sep)` for a one-character separator: parts between
separators, empties kept. -/
def splitOnC (sep : Char) (l : List Char) : List (List Char) :=
  l.foldr
    (fun a acc =>
      if a == sep then [] :: acc
      else
        match acc with
        | [] => [[a]]
        | w :: r => (a :: w) :: r)
    [[]]

/-- Python `str.split()` (no argument): split on whitespace runs, no empty
parts. -/
def splitWs (l : List Char) : List (List Char) :=
  (l.foldr
    (fun a acc =>
      if Char.isWhitespace a then [] :: acc
      else
        match acc with
        | [] => [[a]]
        | w :: r => (a :: w) :: r)
    [[]]).filter (fun w => !w.isEmpty)

/-- Does any entry of `tbl` occur inside `u`? (Python
`any(k in u for k in tbl)`). -/
def anySub (u : List Char) (tbl : List (List Char)) : Bool :=
  tbl.any (fun k => containsSub u k)

/-! ### The constant keyword tables of `parse_calendar.py` -/

/-- The literal `"CHIEF'S CONFERENCE"`. -/
def chiefsConf : List Char := str "CHIEF" ++ apos :: str "S CONFERENCE"

/-- `SPECIAL_SPLIT_MARKERS`. -/
def special_split_markers : List (List Char) :=
  [chiefsConf, str "CHIEFS CONFERENCE"]

/-- `LOCATION_HINTS` (a Python set, listed here in source order; only
membership/`any` is ever used). -/
def location_hints : List (List Char) :=
  [str "MICROSOFT TEAMS", str "IN PERSON", str "TELECONFERENCE", str "ZOOM",
   str "BOI", str "ANC", str "JNU", str "ROOM", str "CONF", str "SUITE",
   str "FLOOR", str "OFFICE", str "BUILDING", str "CAPITOL", str "ANCHORAGE",
   str "JUNEAU", str "PALMER", str "FAIRBANKS", str "TEAMS"]

/-- `FORCED_EVENT_PREFIXES` (renamed: forced event start phrases). -/
def forced_event_starts : List (List Char) :=
  [str "CHECK IN", str "STATEHOOD", str "OP-ED", str "OP ED",
   str "WORK ON LIST", str "UPDATE", chiefsConf]

/-- `PERSON_HINTS`. -/
def person_hints : List (List Char) :=
  [str "GOV)", str "LAW)", str "DNR)", str "DOL)", str "DOC)", str "DEC)",
   str "DOT)", str "EDU)", str "JUD)", str "LEG)"]

/-- `DAY_NAMES_UPPER`. -/
def day_names_upper : List (List Char) :=
  [str "MONDAY", str "TUESDAY", str "WEDNESDAY", str "THURSDAY", str "FRIDAY",
   str "SATURDAY", str "SUNDAY"]

/-- `NOISE_SEGMENTS`. -/
def noise_segments : List (List Char) := [str "BOI BOI"]

/-- The meeting-type keyword tuple tested in `should_force_new_event`. -/
def meeting_type_keywords : List (List Char) :=
  [str "MTG:", str "HEARING", str "BRIEFING", str "INTERVIEW", str "DEFENSE",
   str "REVIEW", str "PRESS CONFERENCE"]

/-- The keyword tuple excluding person classification in `is_person_segment`. -/
def person_exclude_keywords : List (List Char) :=
  [str "STATEHOOD", str "DEFENSE", str "MEETING", str "CONFERENCE",
   str "CABINET", str "BRIEFING"]

/-! ### The capitalized-name shape

The Python pattern (used with `re.fullmatch`) is

  `[A-Z][a-z]+(?: [A-Z][a-z]+){0,2}(?: [A-Z]\.)?(?: \(.+\))?`

i.e. one to three space-separated capitalized words, an optional
middle-initial part, then an optional trailing parenthetical whose body is
one or more non-newline characters.  Because a capitalized word cannot
contain a space, a dot or a bracket, each optional part of a full match is
anchored deterministically (the parenthetical at the first opening bracket,
the initial at a trailing dot), so the match is decided by direct
decomposition. -/

/-- One word of the shape: `[A-Z][a-z]+` (ASCII classes). -/
def isNameWord (w : List Char) : Bool :=
  match w with
  | c :: rest => c.isUpper && !rest.isEmpty && rest.all Char.isLower
  | [] => false

/-- One to three capitalized words joined by single spaces. -/
def coreWordsOk (l : List Char) : Bool :=
  let ws := splitOnC ' ' l
  decide (ws.length ≤ 3) && ws.all isNameWord

/-- Core words plus the optional trailing middle-initial part `" X."`. -/
def coreInitOk (l : List Char) : Bool :=
  coreWordsOk l ||
    (match l.reverse with
     | '.' :: c :: ' ' :: rest => c.isUpper && coreWordsOk rest.reverse
     | _ => false)

/-- Core plus initial, followed by a parenthetical `" (...)"` ending the
string; the bracket opening the group is necessarily the first bracket of
the string. -/
def parenSplitOk (l : List Char) : Bool :=
  let pre := l.takeWhile (fun c => c != '(')
  match l.drop pre.length with
  | '(' :: rest =>
      (match pre.reverse with
       | ' ' :: preCore => coreInitOk preCore.reverse
       | _ => false)
      && (match rest.reverse with
          | ')' :: midRev => !midRev.isEmpty && midRev.all (fun c => c != '\n')
          | _ => false)
  | _ => false

/-- `re.fullmatch` of the capitalized-name pattern above. -/
def nameShape (l : List Char) : Bool := coreInitOk l || parenSplitOk l

/-! ### Segment classifiers -/

/-- `segment_has_digits`. -/
def segment_has_digits (text : List Char) : Bool := text.any Char.isDigit

/-- `is_location_segment` (lines 328-339 of the source). -/
def is_location_segment (segment : Seg) : Bool :=
  let cleaned := strip segment
  if cleaned.isEmpty then false
  else
    let u := up cleaned
    if containsSub u (str "TELECONFERENCE") then true
    else if containsSub u chiefsConf then false
    else if containsSub u (str "CONFERENCE") && !containsSub u (str "ROOM") &&
        !containsSub u (str "CENTER") && !containsSub u (str "CALL") &&
        !containsSub u (str "LINE") then false
    else anySub u location_hints

/-- `is_person_segment` (lines 342-363 of the source). -/
def is_person_segment (segment : Seg) : Bool :=
  let cleaned := strip segment
  if cleaned.isEmpty then false
  else
    let u := up cleaned
    if startsWithL (str "PH:") u then false
    else if containsSub u (str "TELECONFERENCE") then false
    else if is_location_segment segment then false
    else if startsWithL (str "MTG:") u then false
    else if anySub u person_exclude_keywords then false
    else if cleaned.contains ',' && !segment_has_digits cleaned &&
        (let parts := ((splitOnC ',' cleaned).map strip).filter (fun p => !p.isEmpty)
         !parts.isEmpty && parts.any (fun p => (p.headD ' ').isAlpha)) then true
    else if nameShape cleaned then true
    else anySub u person_hints

/-- Matcher for `[:.]\d\d` (the clock separator and minutes). -/
def clockSep (r : List Char) : Bool :=
  match r with
  | s :: d3 :: d4 :: _ => (s == ':' || s == '.') && d3.isDigit && d4.isDigit
  | _ => false

/-- Second hour digit then separator and minutes. -/
def clockTwo (r : List Char) : Bool :=
  match r with
  | d2 :: r2 => d2.isDigit && clockSep r2
  | _ => false

/-- Python `re.match` of `^\d{1,2}[:.]\d{2}` (match anchored at the start,
arbitrary text may follow). -/
def startsClockTime (l : List Char) : Bool :=
  match l with
  | d1 :: rest => d1.isDigit && (clockTwo rest || clockSep rest)
  | [] => false

/-- Literal `AM` or `PM` at the head. -/
def amPmAt (r : List Char) : Bool :=
  startsWithL (str "AM") r || startsWithL (str "PM") r

/-- Optional single whitespace then `AM`/`PM`. -/
def amPmWs (r : List Char) : Bool :=
  amPmAt r ||
    (match r with
     | c :: r2 => c.isWhitespace && amPmAt r2
     | [] => false)

/-- Second digit then the `\s?(AM|PM)` tail. -/
def amPmTwo (r : List Char) : Bool :=
  match r with
  | d2 :: r2 => d2.isDigit && amPmWs r2
  | _ => false

/-- Python `re.match` of `^\d{1,2}\s?(AM|PM)` (applied to the uppercased
text in the source). -/
def startsAmPm (u : List Char) : Bool :=
  match u with
  | d1 :: rest => d1.isDigit && (amPmTwo rest || amPmWs rest)
  | [] => false

/-- `should_force_new_event` (lines 138-167 of the source).  The
`currentSegments` argument is part of the Python signature but is never read
by the body. -/
def should_force_new_event (segment : Seg) (currentSegments : List Seg) : Bool :=
  let cleaned := strip segment
  if cleaned.isEmpty then false
  else
    let u := up cleaned
    if startsWithL (str "PH:") u then false
    else if containsSub u (str "TELECONFERENCE") then false
    else if is_location_segment segment then false
    else if nameShape cleaned then true
    else if anySub u person_hints then false
    else if startsClockTime cleaned then true
    else if startsAmPm u then true
    else if forced_event_starts.any (fun p => startsWithL p u) then true
    else if anySub u meeting_type_keywords then
      if !anySub u location_hints then true
      else
        let ws := splitWs cleaned
        let capitalized :=
          (ws.filter (fun w => (w.headD ' ').isAlpha && (w.headD ' ').isUpper)).length
        if 1 < ws.length && ws.length ≤ 8 && ws.length - 1 ≤ capitalized then
          if !anySub u location_hints then true else false
        else false
    else false

/-! ### Segment splitting (`split_event_text`) -/

/-- Python `text.replace(' PH:', ';PH:')`: replace every occurrence, left to
right. -/
def replacePh : List Char → List Char
  | ' ' :: 'P' :: 'H' :: ':' :: rest => ';' :: 'P' :: 'H' :: ':' :: replacePh rest
  | c :: rest => c :: replacePh rest
  | [] => []

/-- Python `re.sub(r'\s+' + re.escape(marker), lambda m: '; ' + m.group(0).strip(), s)`
with `re.IGNORECASE`, for an uppercase `marker` with no surrounding
whitespace: every whitespace run directly followed by a case-insensitive
occurrence of the marker is replaced by `"; "` followed by the matched
marker text.  A match's whitespace part is always the full run (a shorter
run would have to be followed by the marker's first, non-whitespace
character). -/
def subMarkerGo (marker : List Char) : Nat → List Char → List Char
  | _, [] => []
  | 0, l => l
  | fuel + 1, c :: rest =>
    if Char.isWhitespace c then
      let after := rest.dropWhile Char.isWhitespace
      if up (after.take marker.length) == marker then
        ';' :: ' ' ::
          (after.take marker.length ++ subMarkerGo marker fuel (after.drop marker.length))
      else c :: subMarkerGo marker fuel rest
    else c :: subMarkerGo marker fuel rest

/-- The substitution above, with fuel `l.length`.  Each step of `subMarkerGo`
consumes at least one character (the skipped whitespace run is non-empty),
so this fuel always suffices; `subMarkerGo_fuel` below proves the result
does not depend on the fuel as long as it covers the length. -/
def subMarker (marker : List Char) (l : List Char) : List Char :=
  subMarkerGo marker l.length l

/-- `split_event_text` (lines 123-131 of the source). -/
def split_event_text (event_text : List Char) : List Seg :=
  if event_text.isEmpty then []
  else
    let normalized := replacePh event_text
    let normalized := special_split_markers.foldl (fun acc m => subMarker m acc) normalized
    let parts := (splitOnC ';' normalized).map strip
    parts.filter (fun part => !part.isEmpty && !noise_segments.contains (up part))

/-! ### The Event Segmenter (`merge_events`) -/

/-- A PDF word: text plus left-edge position and font name. -/
structure Word where
  text : List Char
  x0 : Int
  fontname : List Char
  deriving DecidableEq

/-- A built line: joined text, minimum left-edge position, and its words. -/
structure Line where
  text : List Char
  x0 : Int
  words : List Word
  deriving DecidableEq

/-- `is_bold_word` (lines 172-174). -/
def is_bold_word (w : Word) : Bool :=
  let f := up w.fontname
  containsSub f (str "BOLD") || containsSub f (str "BD") || containsSub f (str "BLACK")

/-- The mutable state of the `merge_events` loop. -/
structure MState where
  events : List (List Seg)
  current : List Seg
  pending : Bool
  curX0 : Option Int
  pendingLoc : List Seg
  deriving DecidableEq

/-- The initial segmenter state. -/
def initState : MState :=
  { events := [], current := [], pending := true, curX0 := none, pendingLoc := [] }

/-- `flush_current` (lines 187-193): finalize a non-empty open event. -/
def flush (st : MState) : MState :=
  { events := if st.current.isEmpty then st.events else st.events ++ [st.current]
    current := []
    pending := true
    curX0 := none
    pendingLoc := st.pendingLoc }

/-- Seed the (just flushed) current event from the pending location
segments, as done right after both `flush_current()` calls. -/
def absorbPending (st : MState) : MState :=
  if st.pendingLoc.isEmpty then st
  else { st with current := st.current ++ st.pendingLoc, pendingLoc := [] }

/-- Minimum `x0` of a word list (Python `min(..., default=None)`). -/
def minX0 (ws : List Word) : Option Int :=
  ws.foldl (fun acc w => match acc with
    | none => some w.x0
    | some m => some (min m w.x0)) none

/-- Is a current-event entry (beyond index 0) a split point: its uppercase
text starts with `PH:` or with a special split marker (lines 286-293)? -/
def isSplitSeg (s : Seg) : Bool :=
  let u := up s
  startsWithL (str "PH:") u || special_split_markers.any (fun m => startsWithL m u)

/-- Index of the first split point at index 1 or later, if any. -/
def findSplitIndex (l : List Seg) : Option Nat :=
  ((l.drop 1).findIdx? isSplitSeg).map (· + 1)

/-- The time-column branch of the loop body (lines 215-232): either an
all-person continuation joins the open event, or the open event is flushed
(seeded from pending locations) and the segments, if any, open a new
event. -/
def timeBranch (st : MState) (segments : List Seg) (eventX0 : Option Int) : MState :=
  if !segments.isEmpty && !st.pending && !st.current.isEmpty &&
      segments.all is_person_segment then
    { st with
      current := st.current ++ segments
      curX0 := if eventX0.isSome && st.curX0.isNone then eventX0 else st.curX0 }
  else
    let st1 := absorbPending (flush st)
    if !segments.isEmpty then
      { st1 with current := st1.current ++ segments, pending := false, curX0 := eventX0 }
    else
      { st1 with pending := true, curX0 := none }

/-- The mid-accumulation re-split (lines 286-301): cut the open event at the
first later segment that starts with `PH:` or a special marker. -/
def splitStep (st4 : MState) (eventX0 : Option Int) : MState :=
  match findSplitIndex st4.current with
  | some i =>
    let trailing := st4.current.drop i
    let f := flush { st4 with current := st4.current.take i }
    { f with
      current := f.current ++ trailing
      pending := false
      curX0 := match eventX0 with | some e => some e | none => f.curX0 }
  | none => st4

/-- Line 272-276: when a forced new event was decided, flush and seed from
the pending locations. -/
def forceFlush (st : MState) (forcedNew : Bool) : MState :=
  if forcedNew then absorbPending (flush st) else st

/-- Lines 278-279: clear the pending flag when nothing has accumulated. -/
def clearPending (st : MState) : MState :=
  if st.pending && st.current.isEmpty then { st with pending := false } else st

/-- Lines 281-283: seed an empty current event from pending locations. -/
def seedFromPendingLoc (st : MState) : MState :=
  if st.current.isEmpty && !st.pendingLoc.isEmpty then
    { st with current := st.current ++ st.pendingLoc, pendingLoc := [] }
  else st

/-- Line 285: append the line's segments to the current event. -/
def appendSegs (st : MState) (segments : List Seg) : MState :=
  { st with current := st.current ++ segments }

/-- Lines 303-307: merge the line's leftmost position into the tracked
minimum. -/
def trackX0 (st : MState) (eventX0 : Option Int) : MState :=
  match eventX0 with
  | none => st
  | some e =>
    { st with curX0 := match st.curX0 with | none => some e | some c => some (min c e) }

/-- The accumulation branch of the loop body (lines 256-307): decide a
forced new event, seed from pending locations, append the segments, re-split
and track the leftmost position. -/
def accumulate (st : MState) (segments : List Seg) (eventX0 : Option Int)
    (lineIsBold : Bool) : MState :=
  let allPerson := segments.all is_person_segment
  let indentTrigger :=
    match eventX0, st.curX0 with
    | some e, some c => decide (25 < e - c)
    | _, _ => false
  let primary := segments.headD []
  let forcedNew := !st.current.isEmpty &&
    ((indentTrigger && !allPerson) ||
     (!allPerson && should_force_new_event primary st.current) ||
     (lineIsBold && !allPerson && !is_location_segment primary))
  trackX0
    (splitStep
      (appendSegs (seedFromPendingLoc (clearPending (forceFlush st forcedNew))) segments)
      eventX0)
    eventX0

/-- The no-time-column part of the loop body (lines 234-307). -/
def noTimeBranch (st : MState) (segments : List Seg) (eventX0 : Option Int)
    (lineIsBold : Bool) : MState :=
  if segments.isEmpty then st
  else
    let allPerson := segments.all is_person_segment
    let allLocation := segments.all is_location_segment
    if allLocation && !st.current.isEmpty then
      { st with
        current := st.current ++ segments
        curX0 := if eventX0.isSome && st.curX0.isNone then eventX0 else st.curX0 }
    else if allPerson && !st.current.isEmpty then
      { st with current := st.current ++ segments }
    else if allLocation && st.current.isEmpty then
      { st with
        pendingLoc := st.pendingLoc ++ segments
        curX0 := if eventX0.isSome && st.curX0.isNone then eventX0 else st.curX0 }
    else accumulate st segments eventX0 lineIsBold

/-- One iteration of the `merge_events` loop body (lines 207-307) for a line
that did not terminate the region (its stripped text is non-empty and is not
a boundary). -/
def stepLine (st : MState) (line : Line) : MState :=
  let timeWords := line.words.filter (fun w => w.x0 ≤ 70)
  let eventWords := line.words.filter (fun w => 70 < w.x0)
  let event_text := strip (List.intercalate [' '] (eventWords.map Word.text))
  let segments := split_event_text event_text
  let eventX0 := minX0 eventWords
  let lineIsBold := (eventWords.take 3).any is_bold_word
  if !timeWords.isEmpty then timeBranch st segments eventX0
  else noTimeBranch st segments eventX0 lineIsBold

/-- Python `re.search` success of `DATE_PATTERN` is defined below; forward
declaration of the boundary predicate needs it, so the date matcher comes
first.  The pattern is `([A-Za-z]+ \d{1,2}, \d{4})`. -/
def yearTail (r : List Char) : Option (List Char) :=
  match r with
  | y1 :: y2 :: y3 :: y4 :: _ =>
    if y1.isDigit && y2.isDigit && y3.isDigit && y4.isDigit then some [y1, y2, y3, y4]
    else none
  | _ => none

/-- Matcher for the literal `", "` followed by the four-digit year. -/
def commaYear (r : List Char) : Option (List Char) :=
  match r with
  | ',' :: ' ' :: rest => (yearTail rest).map (fun y => ',' :: ' ' :: y)
  | _ => none

/-- Matcher for `\d{1,2}, \d{4}`: the two-digit day is tried first, as the
greedy quantifier does. -/
def dayYear (r : List Char) : Option (List Char) :=
  match r with
  | d1 :: rest =>
    if d1.isDigit then
      (match rest with
       | d2 :: rest2 =>
         if d2.isDigit then (commaYear rest2).map (fun t => d1 :: d2 :: t) else none
       | [] => none) <|> (commaYear rest).map (fun t => d1 :: t)
    else none
  | [] => none

/-- Match `[A-Za-z]+ \d{1,2}, \d{4}` anchored at the head of `l`, returning
the matched text.  The letter run of a match is necessarily maximal (it is
followed by a space). -/
def matchDateAt (l : List Char) : Option (List Char) :=
  let run := l.takeWhile Char.isAlpha
  if run.isEmpty then none
  else
    match l.drop run.length with
    | ' ' :: r2 => (dayYear r2).map (fun t => run ++ ' ' :: t)
    | _ => none

/-- Python `DATE_PATTERN.search`: the leftmost match, scanning positions
left to right. -/
def dateSearch : List Char → Option (List Char)
  | [] => none
  | c :: rest =>
    match matchDateAt (c :: rest) with
    | some m => some m
    | none => dateSearch rest

/-- A boundary line terminates the segmentation region (lines 196-205):
after stripping, its text is a day name, or contains a long-form date, or is
all digits with `x0 > 200`.  Blank lines are skipped, not boundaries. -/
def isBoundaryText (t : List Char) (x0 : Int) : Bool :=
  day_names_upper.contains (up t) ||
  (dateSearch t).isSome ||
  (!t.isEmpty && t.all Char.isDigit && decide (200 < x0))

/-- A line at which the `merge_events` loop breaks. -/
def isBoundaryLine (l : Line) : Bool :=
  !(strip l.text).isEmpty && isBoundaryText (strip l.text) l.x0

/-- The `merge_events` loop over the region's lines. -/
def mergeLoop (st : MState) : List Line → MState
  | [] => st
  | l :: rest =>
    let t := strip l.text
    if t.isEmpty then mergeLoop st rest
    else if isBoundaryText t l.x0 then st
    else mergeLoop (stepLine st l) rest

/-- Attach leftover pending location segments (lines 309-314). -/
def attachPendingLoc (st : MState) : MState :=
  if st.pendingLoc.isEmpty then st
  else if !st.current.isEmpty then
    { st with current := st.current ++ st.pendingLoc, pendingLoc := [] }
  else if !st.events.isEmpty then
    { st with
      events := match st.events.getLast? with
        | some e => st.events.dropLast ++ [e ++ st.pendingLoc]
        | none => st.events
      pendingLoc := [] }
  else { st with pendingLoc := [] }

/-- `merge_events` (lines 180-317). -/
def merge_events (lines : List Line) (start_index : Nat) : List (List Seg) :=
  (flush (attachPendingLoc (mergeLoop initState (lines.drop start_index)))).events

/-! ### Date parsing (`extract_date`) and the day-line locator -/

/-- A calendar date as produced by `datetime.strptime(...).date()`. -/
structure PyDate where
  year : Nat
  month : Nat
  day : Nat
  deriving DecidableEq

/-- The twelve month names recognised by `%B` (`strptime` matches them
case-insensitively). -/
def monthNames : List (List Char) :=
  [str "JANUARY", str "FEBRUARY", str "MARCH", str "APRIL", str "MAY",
   str "JUNE", str "JULY", str "AUGUST", str "SEPTEMBER", str "OCTOBER",
   str "NOVEMBER", str "DECEMBER"]

/-- Gregorian leap-year rule (as used by `datetime`). -/
def isLeap (y : Nat) : Bool := y % 4 == 0 && (y % 100 != 0 || y % 400 == 0)

/-- Number of days of month `m` in year `y`. -/
def daysInMonth (m y : Nat) : Nat :=
  if m == 2 then (if isLeap y then 29 else 28)
  else if m == 4 || m == 6 || m == 9 || m == 11 then 30
  else 31

/-- Numeric value of a digit string. -/
def natOfDigits (ds : List Char) : Nat :=
  ds.foldl (fun acc c => acc * 10 + (c.toNat - 48)) 0

/-- One-based month number of a month-name token, if it is one. -/
def monthIndex (m : List Char) : Option Nat :=
  (monthNames.findIdx? (fun n => n == up m)).map (· + 1)

/-- `datetime.strptime(cap, '%B %d, %Y').date()` on a string `cap` captured
by `DATE_PATTERN` (so `cap` is letters, space, one or two digits, comma,
space, four digits).  `strptime` succeeds exactly when the letters are a
month name (any case), the day value is between 1 and the month's length,
and the year is at least 1 (`datetime.MINYEAR`); a `ValueError` is `none`. -/
def parseLongDate (cap : List Char) : Option PyDate :=
  let mon := cap.takeWhile Char.isAlpha
  match monthIndex mon with
  | none => none
  | some m =>
    match cap.drop mon.length with
    | ' ' :: rest =>
      let ds := rest.takeWhile Char.isDigit
      let dayVal := natOfDigits ds
      match rest.drop ds.length with
      | ',' :: ' ' :: ys =>
        let y := natOfDigits ys
        if 1 ≤ dayVal && dayVal ≤ daysInMonth m y && 1 ≤ y then
          some { year := y, month := m, day := dayVal }
        else none
      | _ => none
    | _ => none

/-- The date candidate of one line: the leftmost `DATE_PATTERN` match, then
the `strptime` attempt on it. -/
def lineDate (l : Line) : Option PyDate :=
  match dateSearch l.text with
  | some cap => parseLongDate cap
  | none => none

/-- `extract_date` (lines 105-113): first line whose candidate parses; a
parse failure moves on to the next line. -/
def extract_date : List Line → Option PyDate
  | [] => none
  | l :: rest =>
    match lineDate l with
    | some d => some d
    | none => extract_date rest

/-- Is a line's stripped, uppercased text exactly a day name? -/
def isDayLine (l : Line) : Bool := day_names_upper.contains (up (strip l.text))

/-- `find_day_line_index` (lines 116-120). -/
def find_day_line_index : List Line → Option Nat
  | [] => none
  | l :: rest =>
    if isDayLine l then some 0 else (find_day_line_index rest).map (· + 1)

/-! ### The Field Formatter (`format_event_segments`) -/

/-- Python `re.sub(r'\s+', ' ', s)`: collapse each whitespace run to a
single space. -/
def collapseWs : List Char → List Char
  | [] => []
  | [c] => if c.isWhitespace then [' '] else [c]
  | c :: d :: rest =>
    if c.isWhitespace && d.isWhitespace then collapseWs (d :: rest)
    else (if c.isWhitespace then ' ' else c) :: collapseWs (d :: rest)

/-- `normalize_for_compare` (lines 374-375). -/
def normalize_for_compare (v : Seg) : Seg := stripSpSemi (collapseWs (up v))

/-- `should_skip_segment` (lines 377-380), parameterised by the current
`field1`. -/
def shouldSkipB (field1 value : Seg) : Bool :=
  let u := stripSpSemi (up value)
  let fn := normalize_for_compare field1
  u == fn || endsWithL u fn

/-- Does `re.search(r'[A-Z][a-z]+,\s+[A-Z]', _)` match anchored here?  In a
match the lowercase run is maximal (a comma follows) and the whitespace run
is maximal (an uppercase letter follows), so the test is deterministic. -/
def nameSplitAt (l : List Char) : Bool :=
  match l with
  | c :: rest =>
    c.isUpper &&
      (let low := rest.takeWhile Char.isLower
       !low.isEmpty &&
         (match rest.drop low.length with
          | ',' :: r2 =>
            let wsr := r2.takeWhile Char.isWhitespace
            !wsr.isEmpty &&
              (match r2.drop wsr.length with
               | u2 :: _ => u2.isUpper
               | [] => false)
          | _ => false))
  | [] => false

/-- `match.start()` of the leftmost `[A-Z][a-z]+,\s+[A-Z]` match, if any. -/
def nameSplitIdx : List Char → Option Nat
  | [] => none
  | c :: rest =>
    if nameSplitAt (c :: rest) then some 0 else (nameSplitIdx rest).map (· + 1)

/-- The `for segment in rest_raw` loop of `format_event_segments` (lines
382-400): threads the mutable `field1` and accumulates `processed_rest`. -/
def procLoop (f1 : Seg) (acc : List Seg) : List Seg → (Seg × List Seg)
  | [] => (f1, acc)
  | seg :: rest =>
    if seg.isEmpty then procLoop f1 acc rest
    else if startsWithL (str "PH:") (up seg) then
      procLoop (strip (f1 ++ ' ' :: seg)) acc rest
    else if shouldSkipB f1 seg then procLoop f1 acc rest
    else
      let pieces :=
        match nameSplitIdx seg with
        | some i =>
          if 0 < i then
            let before := stripSpSemi (seg.take i)
            let later := strip (seg.drop i)
            (if before.isEmpty then [] else [before]) ++
              (if later.isEmpty then [] else [later])
          else [seg]
        | none => [seg]
      procLoop f1 (acc ++ pieces) rest

/-- Text after the first literal occurrence of `"PH:"`, if any. -/
def splitFirstPH : List Char → Option (List Char)
  | [] => none
  | c :: rest =>
    if startsWithL (str "PH:") (c :: rest) then some ((c :: rest).drop 3)
    else splitFirstPH rest

/-- `clean_meeting_place` (lines 321-325).  When the uppercased text starts
with `PH:` but the text contains no literal `"PH:"`, the Python
`split('PH:', 1)[1]` raises `IndexError`; that case is `none`. -/
def clean_meeting_place (text : Seg) : Option Seg :=
  let cleaned := strip text
  if startsWithL (str "PH:") (up cleaned) then (splitFirstPH cleaned).map strip
  else some cleaned

/-- Python `'; '.join`. -/
def joinSemi (parts : List Seg) : Seg := List.intercalate (str "; ") parts

/-- `format_event_segments` (lines 367-430); `none` models the possible
`IndexError` from `clean_meeting_place`. -/
def format_event_segments (segments : List Seg) : Option (Seg × Seg × Seg) :=
  match segments with
  | [] => some ([], [], [])
  | s0 :: rest =>
    let field1 := strip s0
    let rest_raw := (rest.filter (fun s => !s.isEmpty && !(strip s).isEmpty)).map strip
    let fp := procLoop field1 [] rest_raw
    let f1 := fp.1
    let processed_rest := fp.2.filter (fun s => !s.isEmpty)
    let person_parts0 := processed_rest.filter is_person_segment
    let meeting_parts0 := processed_rest.filter (fun s => !is_person_segment s)
    let fu := up f1
    let mp :=
      if containsSub fu (str "PH: INTERVIEW") then
        if !meeting_parts0.isEmpty then (([] : List Seg), meeting_parts0 ++ person_parts0)
        else (meeting_parts0, person_parts0)
      else if startsWithL (str "PH:") fu && meeting_parts0.isEmpty &&
          !person_parts0.isEmpty then
        (person_parts0, ([] : List Seg))
      else if startsWithL (str "MTG:") fu && meeting_parts0.isEmpty &&
          !person_parts0.isEmpty then
        (person_parts0, ([] : List Seg))
      else (meeting_parts0, person_parts0)
    let meeting_place0 := joinSemi ((mp.1.map strip).filter (fun p => !p.isEmpty))
    match clean_meeting_place meeting_place0 with
    | none => none
    | some meeting_place =>
      some (f1, meeting_place, joinSemi ((mp.2.map strip).filter (fun p => !p.isEmpty)))

/-! ### The per-page driver (`extract_events`, lines 433-458)

The PDF manipulation itself (pdfplumber, `build_lines`) is outside the
embedding; a page is represented by its built line list.  `none` means the
page is skipped (no extractable date or no day line) or the formatter
raised; `some recs` are the records the generator yields for the page. -/

/-- One output record: date plus the three formatted fields. -/
abbrev PageRecord := PyDate × Seg × Seg × Seg

/-- Format every event of a page in order, tagging the page date. -/
def formatAll (d : PyDate) : List (List Seg) → Option (List PageRecord)
  | [] => some []
  | e :: rest =>
    match format_event_segments e with
    | none => none
    | some (n, mpl, pp) => (formatAll d rest).map (fun rs => (d, n, mpl, pp) :: rs)

/-- The per-page body of `extract_events` (lines 441-458). -/
def page_records (lines : List Line) : Option (List PageRecord) :=
  match extract_date lines with
  | none => none
  | some d =>
    match find_day_line_index lines with
    | none => none
    | some day_idx =>
      let events := merge_events lines (day_idx + 2)
      if events.isEmpty then some [(d, [], [], [])]
      else formatAll d events

/-! ### Spec-side definition for claim C4 -/

/-- The location-classifier cascade exactly as the spec words it (claim C4),
stated on the segment's uppercased text: true when it contains
TELECONFERENCE; otherwise false when it contains CHIEF'S CONFERENCE;
otherwise false when it contains CONFERENCE but none of ROOM, CENTER, CALL,
LINE; otherwise true exactly when it contains a fixed location hint.  To be
compared with `is_location_segment`, which works on the trimmed text. -/
def is_location_spec (segment : Seg) : Bool :=
  let u := up segment
  if containsSub u (str "TELECONFERENCE") then true
  else if containsSub u chiefsConf then false
  else if containsSub u (str "CONFERENCE") && !containsSub u (str "ROOM") &&
      !containsSub u (str "CENTER") && !containsSub u (str "CALL") &&
      !containsSub u (str "LINE") then false
  else anySub u location_hints

/-- The segment-wellformedness invariant of the segmenter state: every
finalized event is non-empty with non-blank segments, and all accumulated
segments (current event and pending locations) are non-blank. -/
def MOk (st : MState) : Prop :=
  (∀ e ∈ st.events, e ≠ [] ∧ ∀ s ∈ e, strip s ≠ []) ∧
  (∀ s ∈ st.current, strip s ≠ []) ∧
  (∀ s ∈ st.pendingLoc, strip s ≠ [])

/-! ### Sample page data used by the witnesses -/

/-- Sample page: date line, day line, column-header line, and one
time-stamped schedule line. -/
def samplePageLines : List Line :=
  [ { text := str "September 1, 2023", x0 := 40,
      words := [{ text := str "September", x0 := 40, fontname := [] },
                { text := str "1,", x0 := 95, fontname := [] },
                { text := str "2023", x0 := 115, fontname := [] }] }
  , { text := str "Friday", x0 := 40, words := [{ text := str "Friday", x0 := 40, fontname := [] }] }
  , { text := str "Time Event", x0 := 20,
      words := [{ text := str "Time", x0 := 20, fontname := [] },
                { text := str "Event", x0 := 90, fontname := [] }] }
  , { text := str "9:00 AM Jane Smith (DNR); Conference Room 400", x0 := 20,
      words := [{ text := str "9:00", x0 := 20, fontname := [] },
                { text := str "AM", x0 := 45, fontname := [] },
                { text := str "Jane", x0 := 100, fontname := [] },
                { text := str "Smith", x0 := 130, fontname := [] },
                { text := str "(DNR);", x0 := 160, fontname := [] },
                { text := str "Conference", x0 := 200, fontname := [] },
                { text := str "Room", x0 := 240, fontname := [] },
                { text := str "400", x0 := 270, fontname := [] }] } ]

/-- The date of the sample page. -/
def sampleDate : PyDate := { year := 2023, month := 9, day := 1 }

/-- The single record the driver emits for the sample page. -/
def sampleRecord : PageRecord :=
  (sampleDate, str "Jane Smith (DNR)", str "Conference Room 400", [])

/-! ## Theorems about the claims -/

/-- Length bound for `dropWhile`. -/
theorem dropWhile_len_le (p : Char → Bool) (l : List Char) :
    (l.dropWhile p).length ≤ l.length := by
  induction l with
  | nil => simp [List.dropWhile]
  | cons c t ih =>
    by_cases h : p c
    · simp [List.dropWhile, h]; omega
    · simp [List.dropWhile, h]

/-- `subMarkerGo` does not depend on the fuel once it covers the list
length; in particular `subMarker`'s fuel of `l.length` is canonical. -/
theorem subMarkerGo_fuel (marker : List Char) :
    ∀ f1 f2 l, l.length ≤ f1 → l.length ≤ f2 →
      subMarkerGo marker f1 l = subMarkerGo marker f2 l := by
  intro f1
  induction f1 with
  | zero =>
    intro f2 l h1 h2
    have : l = [] := by
      cases l with
      | nil => rfl
      | cons c t => simp at h1
    subst this
    cases f2 <;> rfl
  | succ g1 ih =>
    intro f2 l h1 h2
    cases l with
    | nil => cases f2 <;> rfl
    | cons c rest =>
      cases f2 with
      | zero => simp at h2
      | succ g2 =>
        simp only [subMarkerGo]
        have hr : rest.length ≤ g1 := by simpa using h1
        have hr2 : rest.length ≤ g2 := by simpa using h2
        have hd : ((rest.dropWhile Char.isWhitespace).drop marker.length).length ≤
            rest.length :=
          Nat.le_trans (Nat.le_trans (List.length_drop _ _ ▸ Nat.sub_le _ _)
            (Nat.le_refl _)) (dropWhile_len_le _ _)
        rw [ih g2 rest hr hr2, ih g2 _ (Nat.le_trans hd hr) (Nat.le_trans hd hr2)]

/-- C10: `should_force_new_event` is independent of its second argument:
for every segment and any two current-segment lists the results agree (the
Python body never reads `current_segments`). -/
theorem should_force_ignores_current (s : Seg) (l1 l2 : List Seg) :
    should_force_new_event s l1 = should_force_new_event s l2 := rfl

/-- C1: no segment is classified as both a location and a person:
`is_location_segment` and `is_person_segment` are never both true
(`is_person_segment` returns false outright on location segments). -/
theorem location_person_exclusive (s : Seg) :
    (is_location_segment s && is_person_segment s) = false := by
  by_cases h : is_location_segment s = true
  · have hp : is_person_segment s = false := by
      unfold is_person_segment
      simp only [h]
      split
      · rfl
      · split
        · rfl
        · split
          · rfl
          · simp
    simp [hp]
  · simp [Bool.not_eq_true] at h
    simp [h]

/-- C2 (amended): a segment that reaches the meeting-type-keyword rule of
`should_force_new_event` (hypotheses `h0`–`h8`: no earlier rule decided it;
`h9`: it contains a meeting-type keyword) makes the function return true
exactly when the segment contains no location hint; when a location hint is
present the result is false — the short-title branch re-tests the absence
of a location hint, so it can never return true. -/
theorem keyword_rule_result (s : Seg) (cur : List Seg)
    (h0 : (strip s).isEmpty = false)
    (h1 : startsWithL (str "PH:") (up (strip s)) = false)
    (h2 : containsSub (up (strip s)) (str "TELECONFERENCE") = false)
    (h3 : is_location_segment s = false)
    (h4 : nameShape (strip s) = false)
    (h5 : anySub (up (strip s)) person_hints = false)
    (h6 : startsClockTime (strip s) = false)
    (h7 : startsAmPm (up (strip s)) = false)
    (h8 : forced_event_starts.any (fun p => startsWithL p (up (strip s))) = false)
    (h9 : anySub (up (strip s)) meeting_type_keywords = true) :
    should_force_new_event s cur = !anySub (up (strip s)) location_hints := by
  unfold should_force_new_event
  simp only [h0, h1, h2, h3, h4, h5, h6, h7, h8, h9, Bool.false_eq_true, if_false, if_true]
  by_cases hl : anySub (up (strip s)) location_hints = true
  · simp only [hl, Bool.not_true, Bool.false_eq_true, if_false]
    split
    · simp [hl]
    · rfl
  · simp [Bool.not_eq_true] at hl
    simp [hl]

/-- Witness for `keyword_rule_result` at the segment "HEARING CONFERENCE"
(which contains the keyword HEARING and the location hint CONF). -/
theorem keyword_rule_result_witness :
    should_force_new_event (str "HEARING CONFERENCE") [] =
      !anySub (up (strip (str "HEARING CONFERENCE"))) location_hints :=
  keyword_rule_result (str "HEARING CONFERENCE") [] (by decide) (by decide)
    (by decide) (by decide) (by decide) (by decide) (by decide) (by decide)
    (by decide) (by decide)

/-- C2 counterexample to the claim as stated: "HEARING CONFERENCE" reaches
the keyword rule (no earlier rule fires, it contains the keyword HEARING),
contains a location hint (CONF), and is a short fully-capitalized title of
two words, yet `should_force_new_event` returns false where the claim
predicts true. -/
theorem keyword_rule_counterexample :
    (strip (str "HEARING CONFERENCE")).isEmpty = false ∧
    startsWithL (str "PH:") (up (strip (str "HEARING CONFERENCE"))) = false ∧
    containsSub (up (strip (str "HEARING CONFERENCE"))) (str "TELECONFERENCE") = false ∧
    is_location_segment (str "HEARING CONFERENCE") = false ∧
    nameShape (strip (str "HEARING CONFERENCE")) = false ∧
    anySub (up (strip (str "HEARING CONFERENCE"))) person_hints = false ∧
    startsClockTime (strip (str "HEARING CONFERENCE")) = false ∧
    startsAmPm (up (strip (str "HEARING CONFERENCE"))) = false ∧
    forced_event_starts.any
      (fun p => startsWithL p (up (strip (str "HEARING CONFERENCE")))) = false ∧
    anySub (up (strip (str "HEARING CONFERENCE"))) meeting_type_keywords = true ∧
    anySub (up (strip (str "HEARING CONFERENCE"))) location_hints = true ∧
    (let ws := splitWs (strip (str "HEARING CONFERENCE"))
     1 < ws.length ∧ ws.length ≤ 8 ∧
       ws.length - 1 ≤
         (ws.filter (fun w => (w.headD ' ').isAlpha && (w.headD ' ').isUpper)).length) ∧
    should_force_new_event (str "HEARING CONFERENCE") [] = false := by
  decide

/-- C6: a page with an extractable date and a day line whose segmenter
yields zero events produces exactly the placeholder record
`(date, '', '', '')`. -/
theorem placeholder_record (lines : List Line) (d : PyDate) (i : Nat)
    (hd : extract_date lines = some d)
    (hi : find_day_line_index lines = some i)
    (he : merge_events lines (i + 2) = []) :
    page_records lines = some [(d, [], [], [])] := by
  unfold page_records
  rw [hd, hi]
  simp [he]

/-- Witness for `placeholder_record`: a two-line page (date line, day line)
with no schedule lines. -/
theorem placeholder_record_witness :
    page_records
      [{ text := str "September 1, 2023", x0 := 40, words := [] },
       { text := str "Friday", x0 := 40, words := [] }] =
      some [({ year := 2023, month := 9, day := 1 }, [], [], [])] :=
  placeholder_record _ { year := 2023, month := 9, day := 1 } 1 (by decide)
    (by decide) (by decide)

/-- C9: `find_day_line_index` returns the index of the first line whose
trimmed uppercased text is exactly one of the seven day names, and `none`
exactly when no line qualifies. -/
theorem find_day_line_index_spec (lines : List Line) :
    (∀ i : Nat,
      find_day_line_index lines = some i ↔
        ((∃ l, lines[i]? = some l ∧ isDayLine l = true) ∧
          ∀ j, j < i → ∀ l, lines[j]? = some l → isDayLine l = false)) ∧
    (find_day_line_index lines = none ↔ ∀ l ∈ lines, isDayLine l = false) := by
  induction lines with
  | nil =>
    constructor
    · intro i
      simp [find_day_line_index]
    · simp [find_day_line_index]
  | cons l t ih =>
    by_cases h : isDayLine l = true
    · constructor
      · intro i
        cases i with
        | zero =>
          simp [find_day_line_index, h]
        | succ k =>
          simp only [find_day_line_index, h, if_true]
          constructor
          · intro hc
            exact absurd hc (by simp)
          · intro hc
            have := hc.2 0 (Nat.succ_pos k) l (by simp)
            rw [h] at this
            exact absurd this (by simp)
      · simp only [find_day_line_index, h, if_true]
        constructor
        · intro hc
          exact absurd hc (by simp)
        · intro hc
          have := hc l (List.mem_cons_self l t)
          rw [h] at this
          exact absurd this (by simp)
    · have h' : isDayLine l = false := by
        simp [Bool.not_eq_true] at h
        exact h
      constructor
      · intro i
        cases i with
        | zero =>
          simp only [find_day_line_index, h', Bool.false_eq_true, if_false]
          constructor
          · intro hc
            rcases Option.map_eq_some'.mp hc with ⟨k, _, hk⟩
            exact absurd hk (by simp)
          · intro hc
            rcases hc.1 with ⟨l0, hl0, hd0⟩
            simp at hl0
            rw [hl0] at h'
            rw [h'] at hd0
            exact absurd hd0 (by simp)
        | succ k =>
          simp only [find_day_line_index, h', Bool.false_eq_true, if_false]
          have hmap : (find_day_line_index t).map (· + 1) = some (k + 1) ↔
              find_day_line_index t = some k := by
            constructor
            · intro hc
              rcases Option.map_eq_some'.mp hc with ⟨m, hm, hmk⟩
              simp at hmk
              rwa [hmk] at hm
            · intro hc
              rw [hc]
              rfl
          rw [hmap, (ih.1 k)]
          constructor
          · intro hc
            refine ⟨by simpa using hc.1, ?_⟩
            intro j hj l0 hl0
            cases j with
            | zero =>
              simp at hl0
              rw [← hl0]
              exact h'
            | succ m =>
              simp at hl0
              exact hc.2 m (Nat.lt_of_succ_lt_succ hj) l0 (by simpa using hl0)
          · intro hc
            refine ⟨by simpa using hc.1, ?_⟩
            intro j hj l0 hl0
            exact hc.2 (j + 1) (Nat.succ_lt_succ hj) l0 (by simpa using hl0)
      · simp only [find_day_line_index, h', Bool.false_eq_true, if_false]
        constructor
        · intro hc
          have hn : find_day_line_index t = none := by
            cases hfd : find_day_line_index t with
            | none => rfl
            | some k =>
              rw [hfd] at hc
              exact absurd hc (by simp)
          intro l0 hl0
          rcases List.mem_cons.mp hl0 with rfl | hmem
          · exact h'
          · exact (ih.2.mp hn) l0 hmem
        · intro hc
          have hn : find_day_line_index t = none :=
            ih.2.mpr (fun l0 hl0 => hc l0 (List.mem_cons_of_mem l hl0))
          rw [hn]
          rfl

/-- C7: `extract_date` returns the date parsed from the first line whose
leftmost `DATE_PATTERN` candidate parses (`lineDate`); lines with no match
or an unparseable candidate are passed over without aborting the scan, and
the result is `none` exactly when every line fails. -/
theorem extract_date_spec (lines : List Line) :
    (∀ d : PyDate,
      extract_date lines = some d ↔
        ∃ i : Nat,
          (∃ l, lines[i]? = some l ∧ lineDate l = some d) ∧
            ∀ j, j < i → ∀ l, lines[j]? = some l → lineDate l = none) ∧
    (extract_date lines = none ↔ ∀ l ∈ lines, lineDate l = none) := by
  induction lines with
  | nil =>
    constructor
    · intro d
      simp [extract_date]
    · simp [extract_date]
  | cons l t ih =>
    cases hld : lineDate l with
    | some d0 =>
      constructor
      · intro d
        constructor
        · intro hc
          simp only [extract_date, hld] at hc
          refine ⟨0, ⟨l, by simp, by rw [hld, hc]⟩, ?_⟩
          intro j hj
          exact absurd hj (Nat.not_lt_zero j)
        · rintro ⟨i, ⟨l0, hl0, hd0⟩, hprev⟩
          cases i with
          | zero =>
            simp at hl0
            rw [← hl0] at hd0
            rw [hld] at hd0
            simp only [extract_date, hld]
            exact hd0
          | succ k =>
            have := hprev 0 (Nat.succ_pos k) l (by simp)
            rw [hld] at this
            exact absurd this (by simp)
      · constructor
        · intro hc
          simp only [extract_date, hld] at hc
          exact absurd hc (by simp)
        · intro hc
          have := hc l (List.mem_cons_self l t)
          rw [hld] at this
          exact absurd this (by simp)
    | none =>
      constructor
      · intro d
        simp only [extract_date, hld]
        rw [(ih.1 d)]
        constructor
        · rintro ⟨i, ⟨l0, hl0, hd0⟩, hprev⟩
          refine ⟨i + 1, ⟨l0, by simpa using hl0, hd0⟩, ?_⟩
          intro j hj l1 hl1
          cases j with
          | zero =>
            simp at hl1
            rw [← hl1]
            exact hld
          | succ m =>
            simp at hl1
            exact hprev m (Nat.lt_of_succ_lt_succ hj) l1 (by simpa using hl1)
        · rintro ⟨i, ⟨l0, hl0, hd0⟩, hprev⟩
          cases i with
          | zero =>
            simp at hl0
            rw [← hl0] at hd0
            rw [hld] at hd0
            exact absurd hd0 (by simp)
          | succ k =>
            refine ⟨k, ⟨l0, by simpa using hl0, hd0⟩, ?_⟩
            intro j hj l1 hl1
            exact hprev (j + 1) (Nat.succ_lt_succ hj) l1 (by simpa using hl1)
      · simp only [extract_date, hld]
        constructor
        · intro hc
          intro l0 hl0
          rcases List.mem_cons.mp hl0 with rfl | hmem
          · exact hld
          · exact (ih.2.mp hc) l0 hmem
        · intro hc
          exact ih.2.mpr (fun l0 hl0 => hc l0 (List.mem_cons_of_mem l hl0))

/-- The segmenter loop never looks past a boundary line: the loop's result
on a list with a boundary at index `i` equals its result on the first `i`
lines. -/
theorem mergeLoop_stop (L : List Line) (st : MState) (i : Nat) (hi : i < L.length)
    (hb : isBoundaryLine (L.get ⟨i, hi⟩) = true) :
    mergeLoop st L = mergeLoop st (L.take i) := by
  induction L generalizing st i with
  | nil => exact absurd hi (by simp)
  | cons l t ih =>
    cases i with
    | zero =>
      have h1 : (strip l.text).isEmpty = false := by
        have := hb
        unfold isBoundaryLine at this
        simp only [List.get] at this
        rcases Bool.and_eq_true_iff.mp this with ⟨ha, _⟩
        simpa using ha
      have h2 : isBoundaryText (strip l.text) l.x0 = true := by
        have := hb
        unfold isBoundaryLine at this
        simp only [List.get] at this
        exact (Bool.and_eq_true_iff.mp this).2
      simp [mergeLoop, h1, h2]
    | succ k =>
      have hk : k < t.length := Nat.lt_of_succ_lt_succ hi
      have hb' : isBoundaryLine (t.get ⟨k, hk⟩) = true := hb
      show mergeLoop st (l :: t) = mergeLoop st (l :: t.take k)
      by_cases he : (strip l.text).isEmpty = true
      · simp only [mergeLoop, he, if_true]
        exact ih st k hk hb'
      · have he' : (strip l.text).isEmpty = false := by
          simpa using he
        by_cases hbt : isBoundaryText (strip l.text) l.x0 = true
        · simp [mergeLoop, he', hbt]
        · have hbt' : isBoundaryText (strip l.text) l.x0 = false := by
            simp [Bool.not_eq_true] at hbt
            exact hbt
          simp only [mergeLoop, he', hbt', Bool.false_eq_true, if_false]
          exact ih (stepLine st l) k hk hb'

/-- C3: the Event Segmenter takes nothing from a boundary line or beyond:
for a boundary line at index `k` at or after the start index (a day name, a
long-form date, or an all-digit footer right of x = 200), `merge_events`
over the full line list equals `merge_events` over the lines truncated just
before the boundary. -/
theorem merge_events_stops_at_boundary (lines : List Line) (start_index k : Nat)
    (h1 : start_index ≤ k) (h2 : k < lines.length)
    (hb : isBoundaryLine (lines.get ⟨k, h2⟩) = true) :
    merge_events lines start_index = merge_events (lines.take k) start_index := by
  unfold merge_events
  have hdrop : (lines.take k).drop start_index =
      (lines.drop start_index).take (k - start_index) := by
    rw [List.drop_take]
  rw [hdrop]
  have hlen : k - start_index < (lines.drop start_index).length := by
    simp [List.length_drop]
    omega
  have hget : (lines.drop start_index).get ⟨k - start_index, hlen⟩ =
      lines.get ⟨k, h2⟩ := by
    simp [List.get_drop_eq_drop, List.getElem_drop]
    congr 1
    omega
  rw [mergeLoop_stop (lines.drop start_index) initState (k - start_index) hlen
    (by rw [hget]; exact hb)]

/-- Witness for `merge_events_stops_at_boundary`: a single all-digit line at
x = 300 is a boundary, so segmentation of that page equals segmentation of
the empty truncation. -/
theorem merge_events_stops_at_boundary_witness :
    merge_events [{ text := str "123", x0 := 300, words := [] }] 0 =
      merge_events ([{ text := str "123", x0 := 300, words := [] }].take 0) 0 :=
  merge_events_stops_at_boundary [{ text := str "123", x0 := 300, words := [] }] 0 0
    (Nat.le_refl 0) (by decide) (by decide)

/-- C8 (amended): for a two-segment event `[s0, s]` where the trimmed `s`
does not start with `PH:` (case-insensitively) and the formatter's skip test
holds for it — its uppercased text stripped of outer spaces/semicolons
(interior whitespace untouched) equals the whitespace-collapsed
normalization of the trimmed `s0`, or that normalization ends with it — the
duplicate segment is dropped: formatting `[s0, s]` equals formatting
`[s0]`. -/
theorem format_drops_duplicate (s0 s : Seg)
    (hph : startsWithL (str "PH:") (up (strip s)) = false)
    (hskip : shouldSkipB (strip s0) (strip s) = true) :
    format_event_segments [s0, s] = format_event_segments [s0] := by
  unfold format_event_segments
  by_cases hc : (!s.isEmpty && !(strip s).isEmpty) = true
  · have hne : (strip s).isEmpty = false := by
      rcases Bool.and_eq_true_iff.mp hc with ⟨_, hb⟩
      simpa using hb
    simp only [List.filter_cons, List.filter_nil, hc, if_true, List.map_cons, List.map_nil]
    simp only [procLoop, hne, Bool.false_eq_true, if_false, hph, hskip, if_true]
  · have hc' : (!s.isEmpty && !(strip s).isEmpty) = false := by
      cases hb : (!s.isEmpty && !(strip s).isEmpty) with
      | false => rfl
      | true => exact absurd hb hc
    simp only [List.filter_cons, List.filter_nil, hc', Bool.false_eq_true, if_false,
      List.map_nil]

/-- Witness for `format_drops_duplicate`: a lower-case duplicate of the
event name is elided. -/
theorem format_drops_duplicate_witness :
    format_event_segments [str "AG Briefing", str "ag briefing"] =
      format_event_segments [str "AG Briefing"] :=
  format_drops_duplicate (str "AG Briefing") (str "ag briefing") (by decide) (by decide)

/-- C8 counterexample to the claim as stated: "AG  Briefing" (two interior
spaces) equals "AG Briefing" after uppercasing and whitespace
normalization, but the formatter's skip test does not collapse the
candidate's interior whitespace, so the segment is kept and the formatted
results differ. -/
theorem format_drops_duplicate_counterexample :
    normalize_for_compare (str "AG  Briefing") = normalize_for_compare (str "AG Briefing") ∧
    format_event_segments [str "AG Briefing", str "AG  Briefing"] ≠
      format_event_segments [str "AG Briefing"] := by
  decide

/-! ### Substring invariance under trimming, for C4 -/

/-- Two booleans agreeing as propositions are equal. -/
theorem boolEqOfIff {a b : Bool} (h : a = true ↔ b = true) : a = b := by
  cases a <;> cases b <;> simp_all

/-- Pointwise-equal predicates give equal `List.any`. -/
theorem any_congrL {α : Type} {l : List α} {p q : α → Bool}
    (h : ∀ a ∈ l, p a = q a) : l.any p = l.any q := by
  induction l with
  | nil => rfl
  | cons a t ih =>
    simp only [List.any_cons]
    rw [h a (List.mem_cons_self a t), ih (fun x hx => h x (List.mem_cons_of_mem a hx))]

/-- `startsWithL` is the boolean prefix test. -/
theorem startsWithL_iff (p l : List Char) : startsWithL p l = true ↔ p <+: l := by
  induction p generalizing l with
  | nil => simp [startsWithL]
  | cons a as ih =>
    cases l with
    | nil => simp [startsWithL]
    | cons b bs => simp [startsWithL, List.cons_prefix_cons, ih]

/-- `containsSub` is the boolean substring-occurrence test. -/
theorem containsSub_iff (h p : List Char) : containsSub h p = true ↔ p <:+: h := by
  induction h with
  | nil =>
    simp only [containsSub, Bool.or_eq_true, startsWithL_iff, List.infix_nil]
    constructor
    · rintro (hp | hp)
      · simpa using hp
      · exact absurd hp (by simp)
    · intro hp
      exact Or.inl (by simp [hp])
  | cons c t ih =>
    simp only [containsSub, Bool.or_eq_true, startsWithL_iff, ih, List.infix_cons_iff]

/-- Uppercasing fixes whitespace characters. -/
theorem wsToUpper (c : Char) (h : Char.isWhitespace c = true) : Char.toUpper c = c := by
  unfold Char.isWhitespace at h
  simp only [Bool.or_eq_true, decide_eq_true_eq] at h
  rcases h with ((h1 | h1) | h1) | h1 <;> (subst h1; decide)

/-- Dropping leading whitespace does not change whether a pattern with a
non-whitespace first character occurs in the uppercased text. -/
theorem infix_cons_up_dropWhile (a : Char) (p l : List Char)
    (ha : Char.isWhitespace a = false) :
    ((a :: p) <:+: up (l.dropWhile Char.isWhitespace)) ↔ ((a :: p) <:+: up l) := by
  induction l with
  | nil => simp [List.dropWhile]
  | cons c t ih =>
    by_cases hc : Char.isWhitespace c = true
    · rw [List.dropWhile_cons_of_pos hc, ih]
      have hu : up (c :: t) = c :: up t := by
        simp [up, wsToUpper c hc]
      rw [hu, List.infix_cons_iff]
      constructor
      · intro h
        exact Or.inr h
      · rintro (hpre | hinf)
        · rcases List.cons_prefix_cons.mp hpre with ⟨hac, _⟩
          rw [← hac] at hc
          rw [hc] at ha
          exact absurd ha (by simp)
        · exact hinf
    · rw [List.dropWhile_cons_of_neg hc]

/-- Trimming whitespace from both ends does not change whether a pattern
with non-whitespace first and last characters occurs in the uppercased
text. -/
theorem containsSub_up_strip (s kw : List Char) (hne : kw ≠ [])
    (hh : Char.isWhitespace (kw.headD ' ') = false)
    (hl : Char.isWhitespace (kw.getLastD ' ') = false) :
    containsSub (up (strip s)) kw = containsSub (up s) kw := by
  apply boolEqOfIff
  rw [containsSub_iff, containsSub_iff]
  obtain ⟨a, p, rfl⟩ : ∃ a p, kw = a :: p := by
    cases kw with
    | nil => exact absurd rfl hne
    | cons a p => exact ⟨a, p, rfl⟩
  have ha : Char.isWhitespace a = false := by simpa using hh
  obtain ⟨b, q, hbq⟩ : ∃ b q, (a :: p).reverse = b :: q := by
    cases hr : (a :: p).reverse with
    | nil => exact absurd (List.reverse_eq_nil_iff.mp hr) (by simp)
    | cons b q => exact ⟨b, q, rfl⟩
  have hb : Char.isWhitespace b = false := by
    have hgl : (a :: p).getLast? = some b := by
      rw [← List.head?_reverse, hbq]
      rfl
    have hgd : (a :: p).getLastD ' ' = b := by
      rw [List.getLastD_eq_getLast?, hgl]
      rfl
    rw [hgd] at hl
    exact hl
  have rinf : ∀ Z : List Char, ((a :: p) <:+: Z.reverse) ↔ ((a :: p).reverse <:+: Z) := by
    intro Z
    constructor
    · intro h
      have h2 := List.reverse_infix.mpr h
      rwa [List.reverse_reverse] at h2
    · intro h
      have h2 := List.reverse_infix.mpr h
      rwa [List.reverse_reverse] at h2
  unfold strip stripChars
  have e1 : up (((s.dropWhile Char.isWhitespace).reverse.dropWhile Char.isWhitespace).reverse) =
      (up ((s.dropWhile Char.isWhitespace).reverse.dropWhile Char.isWhitespace)).reverse := by
    simp [up]
  rw [e1, rinf, hbq, infix_cons_up_dropWhile b q _ hb, ← hbq]
  have e2 : up (s.dropWhile Char.isWhitespace).reverse =
      (up (s.dropWhile Char.isWhitespace)).reverse := by
    simp [up]
  rw [e2, List.reverse_infix, infix_cons_up_dropWhile a p s ha]

/-- Table version of `containsSub_up_strip` for `anySub`. -/
theorem anySub_up_strip (s : List Char) (tbl : List (List Char))
    (h : ∀ kw ∈ tbl, containsSub (up (strip s)) kw = containsSub (up s) kw) :
    anySub (up (strip s)) tbl = anySub (up s) tbl := by
  unfold anySub
  exact any_congrL h

/-- C4: the `is_location_segment` cascade agrees with the spec's wording on
every segment: TELECONFERENCE forces true, then the CHIEF'S CONFERENCE
carve-out forces false, then an unqualified CONFERENCE forces false, and
otherwise the fixed location-hint table decides. -/
theorem is_location_matches_spec (s : Seg) :
    is_location_segment s = is_location_spec s := by
  have hconds : ∀ kw ∈ [str "TELECONFERENCE", chiefsConf, str "CONFERENCE",
      str "ROOM", str "CENTER", str "CALL", str "LINE"] ++ location_hints,
      kw ≠ [] ∧ Char.isWhitespace (kw.headD ' ') = false ∧
        Char.isWhitespace (kw.getLastD ' ') = false := by decide
  have inv : ∀ kw ∈ [str "TELECONFERENCE", chiefsConf, str "CONFERENCE",
      str "ROOM", str "CENTER", str "CALL", str "LINE"] ++ location_hints,
      containsSub (up (strip s)) kw = containsSub (up s) kw := fun kw hkw =>
    containsSub_up_strip s kw (hconds kw hkw).1 (hconds kw hkw).2.1 (hconds kw hkw).2.2
  have e1 := inv (str "TELECONFERENCE") (by decide)
  have e2 := inv chiefsConf (by decide)
  have e3 := inv (str "CONFERENCE") (by decide)
  have e4 := inv (str "ROOM") (by decide)
  have e5 := inv (str "CENTER") (by decide)
  have e6 := inv (str "CALL") (by decide)
  have e7 := inv (str "LINE") (by decide)
  have ehints : anySub (up (strip s)) location_hints = anySub (up s) location_hints :=
    anySub_up_strip s location_hints
      (fun kw hkw => inv kw (List.mem_append_right _ hkw))
  by_cases hemp : (strip s).isEmpty = true
  · have hsnil : strip s = [] := by simpa using hemp
    have z1 : containsSub (up s) (str "TELECONFERENCE") = false := by
      rw [← e1, hsnil]; decide
    have z2 : containsSub (up s) chiefsConf = false := by
      rw [← e2, hsnil]; decide
    have z3 : containsSub (up s) (str "CONFERENCE") = false := by
      rw [← e3, hsnil]; decide
    have zh : anySub (up s) location_hints = false := by
      rw [← ehints, hsnil]; decide
    unfold is_location_segment is_location_spec
    simp [hemp, z1, z2, z3, zh]
  · have hemp' : (strip s).isEmpty = false := by
      cases hb : (strip s).isEmpty with
      | false => rfl
      | true => exact absurd hb hemp
    unfold is_location_segment is_location_spec
    simp only [hemp', Bool.false_eq_true, if_false]
    rw [e1, e2, e3, e4, e5, e6, e7, ehints]

/-! ### Trimming lemmas, for the segment-nonemptiness invariant (C5) -/

/-- `dropWhile` gives `[]` exactly on an all-`p` list. -/
theorem dropWhile_nil_iff (p : Char → Bool) (l : List Char) :
    l.dropWhile p = [] ↔ ∀ a ∈ l, p a = true := by
  induction l with
  | nil => simp [List.dropWhile]
  | cons c t ih =>
    by_cases hc : p c = true
    · rw [List.dropWhile_cons_of_pos hc, ih]
      constructor
      · intro h a ha
        rcases List.mem_cons.mp ha with rfl | hm
        · exact hc
        · exact h a hm
      · intro h a ha
        exact h a (List.mem_cons_of_mem c ha)
    · rw [List.dropWhile_cons_of_neg (by simp [hc])]
      constructor
      · intro h
        exact absurd h (by simp)
      · intro h
        exact absurd (h c (List.mem_cons_self c t)) hc

/-- Members of `takeWhile p` satisfy `p`. -/
theorem mem_takeWhile_p (p : Char → Bool) (l : List Char) (a : Char)
    (h : a ∈ l.takeWhile p) : p a = true := by
  induction l with
  | nil => simp [List.takeWhile] at h
  | cons c t ih =>
    by_cases hc : p c = true
    · rw [List.takeWhile_cons_of_pos hc] at h
      rcases List.mem_cons.mp h with rfl | hm
      · exact hc
      · exact ih hm
    · rw [List.takeWhile_cons_of_neg (by simp [hc])] at h
      simp at h

/-- `stripChars` gives `[]` exactly on an all-`p` list. -/
theorem stripChars_nil_iff (p : Char → Bool) (l : List Char) :
    stripChars p l = [] ↔ ∀ a ∈ l, p a = true := by
  unfold stripChars
  rw [List.reverse_eq_nil_iff, dropWhile_nil_iff]
  constructor
  · intro h a ha
    by_cases hmem : a ∈ l.dropWhile p
    · exact h a (List.mem_reverse.mpr hmem)
    · have : a ∈ l.takeWhile p := by
        have hsplit := List.takeWhile_append_dropWhile (p := p) (l := l)
        rw [← hsplit] at ha
        rcases List.mem_append.mp ha with hm | hm
        · exact hm
        · exact absurd hm hmem
      exact mem_takeWhile_p p l a this
  · intro h a ha
    have ha' : a ∈ l.dropWhile p := List.mem_reverse.mp ha
    have : a ∈ l := by
      have hsplit := List.takeWhile_append_dropWhile (p := p) (l := l)
      rw [← hsplit]
      exact List.mem_append_right _ ha'
    exact h a this

/-- Extending a list with non-blank trim keeps the trim non-blank. -/
theorem stripChars_append_ne (p : Char → Bool) (f1 x : List Char)
    (h : stripChars p f1 ≠ []) : stripChars p (f1 ++ x) ≠ [] := by
  intro hc
  exact h ((stripChars_nil_iff p f1).mpr
    (fun a ha => (stripChars_nil_iff p (f1 ++ x)).mp hc a (List.mem_append_left x ha)))

/-- The first survivor of `dropWhile p` fails `p`. -/
theorem dropWhile_head_not (p : Char → Bool) (l : List Char) (c : Char) (t : List Char)
    (h : l.dropWhile p = c :: t) : p c = false := by
  induction l with
  | nil => simp [List.dropWhile] at h
  | cons b r ih =>
    by_cases hb : p b = true
    · rw [List.dropWhile_cons_of_pos hb] at h
      exact ih h
    · rw [List.dropWhile_cons_of_neg (by simp [hb])] at h
      have hbc : b = c := by injection h
      rw [← hbc]
      cases hpb : p b with
      | false => rfl
      | true => exact absurd hpb hb

/-- `dropWhile` is idempotent. -/
theorem dropWhile_idem (p : Char → Bool) (l : List Char) :
    (l.dropWhile p).dropWhile p = l.dropWhile p := by
  cases hdw : l.dropWhile p with
  | nil => rfl
  | cons c t =>
    have hc : p c = false := dropWhile_head_not p l c t hdw
    rw [List.dropWhile_cons_of_neg (by simp [hc])]

/-- `stripChars` is idempotent. -/
theorem stripChars_idem (p : Char → Bool) (l : List Char) :
    stripChars p (stripChars p l) = stripChars p l := by
  unfold stripChars
  set y := l.dropWhile p with hy
  set A := y.reverse.dropWhile p with hA
  have hpre : A.reverse <+: y := by
    have hsuf : A <:+ y.reverse := by
      rw [hA]
      exact List.dropWhile_suffix p
    have := List.reverse_prefix.mpr hsuf
    rwa [List.reverse_reverse] at this
  have halpha : A.reverse.dropWhile p = A.reverse := by
    cases hAr : A.reverse with
    | nil => rfl
    | cons c t =>
      have hyhead : y.dropWhile p = y := by
        rw [hy]
        exact dropWhile_idem p l
      have hyc : ∃ w, y = c :: w := by
        rcases hpre with ⟨z, hz⟩
        rw [hAr] at hz
        exact ⟨t ++ z, by rw [← hz]; simp⟩
      rcases hyc with ⟨w, hw⟩
      have hc : p c = false := by
        apply dropWhile_head_not p y c w
        rw [hyhead, hw]
      rw [List.dropWhile_cons_of_neg (by simp [hc])]
  rw [halpha, List.reverse_reverse]
  have hAidem : A.dropWhile p = A := by
    rw [hA]
    exact dropWhile_idem p y.reverse
  rw [hAidem]

/-- `strip` is idempotent. -/
theorem strip_idem (l : List Char) : strip (strip l) = strip l :=
  stripChars_idem Char.isWhitespace l

/-- Every segment produced by `split_event_text` is non-blank: it is its own
trim and non-empty. -/
theorem split_event_text_ok (t : List Char) (s : Seg)
    (h : s ∈ split_event_text t) : strip s = s ∧ s ≠ [] := by
  unfold split_event_text at h
  by_cases he : t.isEmpty = true
  · simp [he] at h
  · have he' : t.isEmpty = false := by
      cases hb : t.isEmpty with
      | false => rfl
      | true => exact absurd hb he
    rw [he'] at h
    simp only [Bool.false_eq_true, if_false] at h
    rcases List.mem_filter.mp h with ⟨hmem, hcond⟩
    rcases List.mem_map.mp hmem with ⟨raw, _, hraw⟩
    have hself : strip s = s := by
      rw [← hraw]
      exact strip_idem raw
    refine ⟨hself, ?_⟩
    intro hnil
    rw [hnil] at hcond
    simp at hcond

/-! ### The segmenter invariant and the driver consequences (C5) -/

/-- Segments produced by `split_event_text` have non-empty trim. -/
theorem split_event_text_ne (t : List Char) (s : Seg)
    (h : s ∈ split_event_text t) : strip s ≠ [] := by
  rcases split_event_text_ok t s h with ⟨h1, h2⟩
  rw [h1]
  exact h2

/-- A property holding on two lists holds on their concatenation. -/
theorem all_appendP {P : Seg → Prop} {a b : List Seg}
    (ha : ∀ s ∈ a, P s) (hb : ∀ s ∈ b, P s) : ∀ s ∈ a ++ b, P s := by
  intro s hs
  rcases List.mem_append.mp hs with hm | hm
  · exact ha s hm
  · exact hb s hm

/-- `flush_current` preserves the invariant: it only finalizes a non-empty
current event. -/
theorem flush_ok (st : MState) (h : MOk st) : MOk (flush st) := by
  obtain ⟨hE, hC, hP⟩ := h
  unfold flush MOk
  by_cases hc : st.current.isEmpty = true
  · simp only [hc, if_true]
    exact ⟨hE, by simp, hP⟩
  · have hc' : st.current.isEmpty = false := by
      cases hb : st.current.isEmpty with
      | false => rfl
      | true => exact absurd hb hc
    simp only [hc', Bool.false_eq_true, if_false]
    refine ⟨?_, by simp, hP⟩
    intro e he
    rcases List.mem_append.mp he with hm | hm
    · exact hE e hm
    · simp at hm
      subst hm
      exact ⟨by simpa using hc', hC⟩

/-- Seeding the current event from pending locations preserves the
invariant. -/
theorem absorbPending_ok (st : MState) (h : MOk st) : MOk (absorbPending st) := by
  obtain ⟨hE, hC, hP⟩ := h
  unfold absorbPending MOk
  by_cases hc : st.pendingLoc.isEmpty = true
  · simp only [hc, if_true]
    exact ⟨hE, hC, hP⟩
  · have hc' : st.pendingLoc.isEmpty = false := by
      cases hb : st.pendingLoc.isEmpty with
      | false => rfl
      | true => exact absurd hb hc
    simp only [hc', Bool.false_eq_true, if_false]
    exact ⟨hE, all_appendP hC hP, by simp⟩

/-- The time-column branch preserves the invariant. -/
theorem timeBranch_ok (st : MState) (segments : List Seg) (eventX0 : Option Int)
    (h : MOk st) (hs : ∀ s ∈ segments, strip s ≠ []) :
    MOk (timeBranch st segments eventX0) := by
  obtain ⟨hE, hC, hP⟩ := h
  have h1 := absorbPending_ok (flush st) (flush_ok st ⟨hE, hC, hP⟩)
  obtain ⟨hE1, hC1, hP1⟩ := h1
  unfold timeBranch
  split
  · exact ⟨hE, all_appendP hC hs, hP⟩
  · split
    · exact ⟨hE1, all_appendP hC1 hs, hP1⟩
    · exact ⟨hE1, hC1, hP1⟩

/-- The mid-accumulation re-split preserves the invariant. -/
theorem splitStep_ok (st4 : MState) (eventX0 : Option Int) (h : MOk st4) :
    MOk (splitStep st4 eventX0) := by
  obtain ⟨hE, hC, hP⟩ := h
  unfold splitStep
  split
  · rename_i i heq
    have htake : ∀ s ∈ st4.current.take i, strip s ≠ [] :=
      fun s hm => hC s (List.take_subset i st4.current hm)
    have hdrop : ∀ s ∈ st4.current.drop i, strip s ≠ [] :=
      fun s hm => hC s (List.drop_subset i st4.current hm)
    have hf := flush_ok { st4 with current := st4.current.take i } ⟨hE, htake, hP⟩
    obtain ⟨hE2, hC2, hP2⟩ := hf
    exact ⟨hE2, all_appendP hC2 hdrop, hP2⟩
  · exact ⟨hE, hC, hP⟩

/-- The forced-flush step preserves the invariant. -/
theorem forceFlush_ok (st : MState) (b : Bool) (h : MOk st) : MOk (forceFlush st b) := by
  unfold forceFlush
  split
  · exact absorbPending_ok _ (flush_ok _ h)
  · exact h

/-- Clearing the pending flag preserves the invariant. -/
theorem clearPending_ok (st : MState) (h : MOk st) : MOk (clearPending st) := by
  obtain ⟨hE, hC, hP⟩ := h
  unfold clearPending
  split
  · exact ⟨hE, hC, hP⟩
  · exact ⟨hE, hC, hP⟩

/-- Seeding from pending locations preserves the invariant. -/
theorem seedFromPendingLoc_ok (st : MState) (h : MOk st) :
    MOk (seedFromPendingLoc st) := by
  obtain ⟨hE, hC, hP⟩ := h
  unfold seedFromPendingLoc
  split
  · exact ⟨hE, all_appendP hC hP, by simp⟩
  · exact ⟨hE, hC, hP⟩

/-- Appending non-blank segments preserves the invariant. -/
theorem appendSegs_ok (st : MState) (segments : List Seg) (h : MOk st)
    (hs : ∀ s ∈ segments, strip s ≠ []) : MOk (appendSegs st segments) := by
  obtain ⟨hE, hC, hP⟩ := h
  exact ⟨hE, all_appendP hC hs, hP⟩

/-- Position tracking does not touch the segment lists. -/
theorem trackX0_ok (st : MState) (eventX0 : Option Int) (h : MOk st) :
    MOk (trackX0 st eventX0) := by
  obtain ⟨hE, hC, hP⟩ := h
  unfold trackX0
  split
  · exact ⟨hE, hC, hP⟩
  · exact ⟨hE, hC, hP⟩

/-- The accumulation branch preserves the invariant. -/
theorem accumulate_ok (st : MState) (segments : List Seg) (eventX0 : Option Int)
    (lineIsBold : Bool) (h : MOk st) (hs : ∀ s ∈ segments, strip s ≠ []) :
    MOk (accumulate st segments eventX0 lineIsBold) := by
  unfold accumulate
  exact trackX0_ok _ _ (splitStep_ok _ _ (appendSegs_ok _ _
    (seedFromPendingLoc_ok _ (clearPending_ok _ (forceFlush_ok _ _ h))) hs))

/-- The no-time-column part of the loop body preserves the invariant. -/
theorem noTimeBranch_ok (st : MState) (segments : List Seg) (eventX0 : Option Int)
    (lineIsBold : Bool) (h : MOk st) (hs : ∀ s ∈ segments, strip s ≠ []) :
    MOk (noTimeBranch st segments eventX0 lineIsBold) := by
  obtain ⟨hE, hC, hP⟩ := h
  simp only [noTimeBranch]
  split
  · exact ⟨hE, hC, hP⟩
  · split
    · exact ⟨hE, all_appendP hC hs, hP⟩
    · split
      · exact ⟨hE, all_appendP hC hs, hP⟩
      · split
        · exact ⟨hE, hC, all_appendP hP hs⟩
        · exact accumulate_ok st segments eventX0 lineIsBold ⟨hE, hC, hP⟩ hs

/-- One loop iteration preserves the invariant. -/
theorem stepLine_ok (st : MState) (line : Line) (h : MOk st) : MOk (stepLine st line) := by
  have hs : ∀ s ∈ split_event_text (strip (List.intercalate [' ']
      ((line.words.filter (fun w => 70 < w.x0)).map Word.text))), strip s ≠ [] :=
    fun s hm => split_event_text_ne _ s hm
  simp only [stepLine]
  split
  · exact timeBranch_ok _ _ _ h hs
  · exact noTimeBranch_ok _ _ _ _ h hs

/-- The whole loop preserves the invariant. -/
theorem mergeLoop_ok (L : List Line) (st : MState) (h : MOk st) : MOk (mergeLoop st L) := by
  induction L generalizing st with
  | nil => exact h
  | cons l t ih =>
    simp only [mergeLoop]
    split
    · exact ih st h
    · split
      · exact h
      · exact ih (stepLine st l) (stepLine_ok st l h)

/-- The last element of a list is a member. -/
theorem mem_of_getLast?E {l : List (List Seg)} {e : List Seg}
    (h : l.getLast? = some e) : e ∈ l := by
  rw [← List.head?_reverse] at h
  cases hr : l.reverse with
  | nil =>
    rw [hr] at h
    simp at h
  | cons c t =>
    rw [hr] at h
    simp at h
    subst h
    have hc : c ∈ l.reverse := by
      rw [hr]
      exact List.mem_cons_self c t
    exact List.mem_reverse.mp hc

/-- The end-of-region attachment of leftover location segments preserves the
invariant. -/
theorem attachPendingLoc_ok (st : MState) (h : MOk st) : MOk (attachPendingLoc st) := by
  obtain ⟨hE, hC, hP⟩ := h
  unfold attachPendingLoc
  split
  · exact ⟨hE, hC, hP⟩
  · split
    · exact ⟨hE, all_appendP hC hP, by simp⟩
    · split
      · split
        · rename_i e hlast
          refine ⟨?_, hC, by simp⟩
          intro e2 he2
          rcases List.mem_append.mp he2 with hm | hm
          · exact hE e2 (List.dropLast_subset st.events hm)
          · simp at hm
            subst hm
            have hmem := hE e (mem_of_getLast?E hlast)
            exact ⟨by simp [hmem.1], all_appendP hmem.2 hP⟩
        · exact ⟨hE, hC, by simp⟩
      · exact ⟨hE, hC, by simp⟩

/-- Every event finalized by `merge_events` is non-empty and all its
segments have non-empty trim. -/
theorem merge_events_ok (lines : List Line) (start_index : Nat) :
    ∀ e ∈ merge_events lines start_index, e ≠ [] ∧ ∀ s ∈ e, strip s ≠ [] := by
  have h0 : MOk initState := ⟨by simp [initState], by simp [initState], by simp [initState]⟩
  have h1 := mergeLoop_ok (lines.drop start_index) initState h0
  have h2 := flush_ok _ (attachPendingLoc_ok _ h1)
  exact h2.1

/-- The formatter's loop keeps `field1` non-blank. -/
theorem procLoop_f1_ne (l : List Seg) : ∀ (f1 : Seg) (acc : List Seg),
    strip f1 ≠ [] → strip (procLoop f1 acc l).1 ≠ [] := by
  induction l with
  | nil =>
    intro f1 acc h
    exact h
  | cons seg rest ih =>
    intro f1 acc h
    simp only [procLoop]
    split
    · exact ih f1 acc h
    · split
      · apply ih
        rw [strip_idem]
        exact stripChars_append_ne _ f1 _ h
      · split
        · exact ih f1 acc h
        · exact ih f1 _ h

/-- A successfully formatted event with non-blank segments has a non-empty
event name. -/
theorem format_name_ne (segs : List Seg) (n mp pp : Seg)
    (hne : segs ≠ []) (hok : ∀ s ∈ segs, strip s ≠ [])
    (hf : format_event_segments segs = some (n, mp, pp)) : n ≠ [] := by
  cases segs with
  | nil => exact absurd rfl hne
  | cons s0 rest =>
    have h0 : strip (strip s0) ≠ [] := by
      rw [strip_idem]
      exact hok s0 (List.mem_cons_self s0 rest)
    simp only [format_event_segments] at hf
    split at hf
    · exact absurd hf (by simp)
    · rename_i mpv hclean
      have h1 := procLoop_f1_ne
        ((rest.filter (fun s => !s.isEmpty && !(strip s).isEmpty)).map strip)
        (strip s0) [] h0
      simp only [Option.some.injEq, Prod.mk.injEq] at hf
      intro hnil
      rw [hnil] at hf
      rw [hf.1] at h1
      exact h1 rfl

/-- Records produced by `formatAll` carry the page date and a formatted
event from the input list. -/
theorem formatAll_spec (d : PyDate) (evs : List (List Seg)) (recs : List PageRecord)
    (h : formatAll d evs = some recs) :
    ∀ r ∈ recs, r.1 = d ∧
      ∃ e ∈ evs, ∃ mp pp, format_event_segments e = some (r.2.1, mp, pp) := by
  induction evs generalizing recs with
  | nil =>
    simp only [formatAll, Option.some.injEq] at h
    subst h
    simp
  | cons e rest ih =>
    simp only [formatAll] at h
    split at h
    · exact absurd h (by simp)
    · rename_i n mpl pp hfe
      rcases Option.map_eq_some'.mp h with ⟨rs, hrs, hrecs⟩
      subst hrecs
      intro r hr
      rcases List.mem_cons.mp hr with rfl | hm
      · exact ⟨rfl, e, List.mem_cons_self _ _, mpl, pp, hfe⟩
      · rcases ih rs hrs r hm with ⟨h1, e2, he2, mp2, pp2, hf2⟩
        exact ⟨h1, e2, List.mem_cons_of_mem e he2, mp2, pp2, hf2⟩

/-- C5: every event returned by `merge_events` is a non-empty list of
non-empty segments; consequently on a page whose segmenter output is
non-empty, every record the driver emits carries the page's extracted date
and a non-empty event name. -/
theorem merge_format_invariants (lines : List Line) (start_index : Nat) :
    (∀ e ∈ merge_events lines start_index, e ≠ [] ∧ ∀ s ∈ e, s ≠ []) ∧
    (∀ (d : PyDate) (i : Nat) (recs : List PageRecord),
      extract_date lines = some d → find_day_line_index lines = some i →
      merge_events lines (i + 2) ≠ [] → page_records lines = some recs →
      ∀ r ∈ recs, r.1 = d ∧ r.2.1 ≠ []) := by
  constructor
  · intro e he
    rcases merge_events_ok lines start_index e he with ⟨h1, h2⟩
    refine ⟨h1, ?_⟩
    intro s hs hnil
    exact h2 s hs (by rw [hnil]; rfl)
  · intro d i recs hd hi hne hpr
    unfold page_records at hpr
    rw [hd, hi] at hpr
    dsimp only at hpr
    have hie : (merge_events lines (i + 2)).isEmpty = false := by
      cases hb : (merge_events lines (i + 2)).isEmpty with
      | false => rfl
      | true => exact absurd (by simpa using hb) hne
    rw [hie] at hpr
    simp only [Bool.false_eq_true, if_false] at hpr
    intro r hr
    rcases formatAll_spec d _ recs hpr r hr with ⟨h1, e, he, mp, pp, hf⟩
    rcases merge_events_ok lines (i + 2) e he with ⟨hene, heok⟩
    exact ⟨h1, format_name_ne e r.2.1 mp pp hene heok hf⟩

/-- The sample page's segmenter output, by evaluation. -/
theorem sampleMergeEq :
    merge_events samplePageLines 3 =
      [[str "Jane Smith (DNR)", str "Conference Room 400"]] := by
  rfl

/-- The sample page's driver output, by evaluation. -/
theorem samplePageEq : page_records samplePageLines = some [sampleRecord] := by
  rfl

/-- Witness for `merge_format_invariants` on the sample page. -/
theorem merge_format_invariants_witness :
    ([str "Jane Smith (DNR)", str "Conference Room 400"] : List Seg) ≠ [] ∧
    (sampleRecord.1 = sampleDate ∧ sampleRecord.2.1 ≠ []) := by
  constructor
  · exact ((merge_format_invariants samplePageLines 3).1
      [str "Jane Smith (DNR)", str "Conference Room 400"]
      (by rw [sampleMergeEq]; exact List.mem_cons_self _ _)).1
  · exact (merge_format_invariants samplePageLines 3).2 sampleDate 1 [sampleRecord]
      (by rfl) (by rfl) (by rw [sampleMergeEq]; simp) samplePageEq sampleRecord
      (List.mem_cons_self _ _)

end CalParse
